import Mathlib

/-!
# Verification of the AI-Docs-Copilot crawl-and-extract pipeline

A shallow embedding of the documentation crawler in
`src/parsing/BaseParsing.py` and `src/parsing/astro/AstroParsing.py`.

Modelling conventions:

* URLs are represented by the record `Url` holding the six components that
  Python's `urllib.parse.urlparse` produces (scheme, netloc, path, params,
  query, fragment).  `urllib` is an external collaborator of the program
  (spec §6 treats URL parsing/resolution as a standard external capability),
  so functions of the repository that parse a URL string and immediately work
  on its components are embedded directly at the component level, and
  `urlunparse ∘ urlparse` is treated as the identity on such records.
* Python sets are represented by duplicate-free lists; `set.pop` order is
  determinised to the list head (the spec states traversal order is
  unspecified and not a correctness requirement).
* The HTTP fetcher (`requests.get`) is an external collaborator, modelled by
  a function `env : Url → Option Page`: `none` models a failed fetch
  (exception / non-2xx), `some p` a successful response whose parsed form is
  `p`.  HTML parsing (BeautifulSoup) is external as well, so a fetched page
  is modelled by its query results: the list of anchor `href` attribute
  strings, the title, and the content-region selector results.
* File writing is reified: instead of writing to disk the model returns the
  (filename, text) pairs that the Python code would write.
* Regex substitutions from `BaseContentSplitter.process_content` are
  modelled as recursive scanners over `List Char` that implement the
  leftmost, non-overlapping, greedy semantics of `re.sub` specialised to the
  concrete patterns appearing in the source.
-/

namespace Copilot

/-! ## List helpers -/

theorem length_dropWhile_le (p : Char → Bool) (l : List Char) :
    (l.dropWhile p).length ≤ l.length := by
  induction l with
  | nil => simp
  | cons c t ih =>
      rw [List.dropWhile_cons]
      split
      · exact Nat.le_succ_of_le ih
      · exact Nat.le_refl _

theorem dropWhile_idem (p : Char → Bool) (l : List Char) :
    (l.dropWhile p).dropWhile p = l.dropWhile p := by
  induction l with
  | nil => simp
  | cons c t ih =>
      rw [List.dropWhile_cons]
      split
      · exact ih
      · rw [List.dropWhile_cons]
        simp_all

/-! ## URL model

`Url` is the component record produced by `urllib.parse.urlparse`. -/

structure Url where
  scheme : String
  netloc : String
  path : String
  params : String
  query : String
  fragment : String
deriving DecidableEq, Repr

/-- Python `str.rstrip('/')`: remove every trailing `'/'`. -/
def rstripSlash (s : String) : String :=
  ⟨(s.data.reverse.dropWhile (· == '/')).reverse⟩

/-- Python `str.lstrip('/')`: remove every leading `'/'`. -/
def lstripSlash (s : String) : String :=
  ⟨s.data.dropWhile (· == '/')⟩

/-- Python `str.strip('/')`: remove leading and trailing `'/'`. -/
def stripSlash (s : String) : String :=
  rstripSlash (lstripSlash s)

/-- Model of `BaseWebParser.normalize_identifier` (src/parsing/BaseParsing.py lines
137-150): parse the URL, strip the trailing slash from the path, and rebuild
the URL from its scheme, netloc and stripped path, with empty params, query
and fragment. -/
def normalize_identifier (u : Url) : Url :=
  { scheme := u.scheme
    netloc := u.netloc
    path := rstripSlash u.path
    params := ""
    query := ""
    fragment := "" }

/-- The character class of `re.sub(r'[\\/:*?"<>|]', '_', path)` in
`BaseContentSplitter.clean_filename`. -/
def isIllegalFilenameChar (c : Char) : Bool :=
  c == '\\' || c == '/' || c == ':' || c == '*' || c == '?' ||
  c == '"' || c == '<' || c == '>' || c == '|'

/-- Model of `BaseContentSplitter.clean_filename` (src/parsing/BaseParsing.py lines
17-26): take the URL's path, strip surrounding slashes, fall back to
`"index"` when empty, replace every illegal filename character with `'_'`
and append `".md"`. -/
def clean_filename (u : Url) : String :=
  let path := stripSlash u.path
  let path := if path = "" then "index" else path
  ⟨path.data.map (fun c => if isIllegalFilenameChar c then '_' else c)⟩ ++ ".md"

/-! ### Facts about `rstripSlash` / `stripSlash` -/

theorem rstripSlash_idem (s : String) :
    rstripSlash (rstripSlash s) = rstripSlash s := by
  unfold rstripSlash
  simp [dropWhile_idem]

theorem rstripSlash_append_slash (s : String) :
    rstripSlash (s ++ "/") = rstripSlash s := by
  unfold rstripSlash
  have h : (s ++ "/").data = s.data ++ ['/'] := by
    cases s with
    | mk d => rfl
  rw [h]
  simp [List.dropWhile_cons]

/-! ## C6 theorems -/

/-- Claim C6 (confirmed): `normalize_identifier` removes the query string and
fragment, strips the trailing slash from the path, and preserves the scheme,
host and remaining path; it is idempotent; and two URLs differing only in
query, fragment (or the ignored params component), or by a trailing slash on
the path, normalize to the same identifier. -/
theorem normalize_identifier_spec (u : Url) :
    (normalize_identifier u).scheme = u.scheme ∧
    (normalize_identifier u).netloc = u.netloc ∧
    (normalize_identifier u).path = rstripSlash u.path ∧
    (normalize_identifier u).query = "" ∧
    (normalize_identifier u).fragment = "" ∧
    normalize_identifier (normalize_identifier u) = normalize_identifier u ∧
    (∀ par q f, normalize_identifier
        { scheme := u.scheme, netloc := u.netloc, path := u.path,
          params := par, query := q, fragment := f } = normalize_identifier u) ∧
    normalize_identifier
        { scheme := u.scheme, netloc := u.netloc, path := u.path ++ "/",
          params := u.params, query := u.query, fragment := u.fragment } =
      normalize_identifier u := by
  refine ⟨rfl, rfl, rfl, rfl, rfl, ?_, fun par q f => rfl, ?_⟩
  · simp [normalize_identifier, rstripSlash_idem]
  · simp [normalize_identifier, rstripSlash_append_slash]

/-! ## C7 theorems -/

/-- Claim C7 (counterexample): the claim states that for a non-empty path the
result is the path with every illegal character (including `'/'`) replaced
by `'_'`, plus `".md"`.  For the URL `https://site.example.com/docs/` the
path is `"/docs/"`; the claimed output would be `"_docs_.md"` but the code
strips the surrounding slashes first and produces `"docs.md"`. -/
theorem clean_filename_counterexample :
    clean_filename ⟨"https", "site.example.com", "/docs/", "", "", ""⟩ = "docs.md" ∧
    clean_filename ⟨"https", "site.example.com", "/docs/", "", "", ""⟩ ≠ "_docs_.md" := by
  constructor
  · rfl
  · decide

/-- Claim C7 (amended): `clean_filename` depends only on the URL's path component
and is deterministic; a path that is empty (or consists only of slashes)
maps to `"index.md"`; otherwise the result is the path **with leading and
trailing slashes removed first**, every remaining character among
`\\ / : * ? " < > |` replaced by `'_'`, and `".md"` appended. -/
theorem clean_filename_amended (u : Url) :
    (∀ v : Url, v.path = u.path → clean_filename v = clean_filename u) ∧
    (stripSlash u.path = "" → clean_filename u = "index.md") ∧
    (stripSlash u.path ≠ "" →
      (clean_filename u).data =
        (stripSlash u.path).data.map
          (fun c => if isIllegalFilenameChar c then '_' else c) ++ ".md".data) := by
  refine ⟨?_, ?_, ?_⟩
  · intro v hv
    unfold clean_filename
    rw [hv]
  · intro h
    unfold clean_filename
    rw [h]
    rfl
  · intro h
    simp only [clean_filename, if_neg h]
    cases hs : stripSlash u.path with
    | mk d => simp [String.data_append]

/-- Witness for `clean_filename_amended` at the URL
`https://site.example.com/a:b/` (path `"/a:b/"`). -/
theorem clean_filename_amended_witness :
    (stripSlash (Url.mk "https" "site.example.com" "/a:b/" "" "" "").path ≠ "" ∧
      (clean_filename ⟨"https", "site.example.com", "/a:b/", "", "", ""⟩).data =
        (stripSlash (Url.mk "https" "site.example.com" "/a:b/" "" "" "").path).data.map
          (fun c => if isIllegalFilenameChar c then '_' else c) ++ ".md".data) ∧
    (Url.mk "http" "x" "/a:b/" "" "q" "f").path =
        (Url.mk "https" "site.example.com" "/a:b/" "" "" "").path ∧
    clean_filename ⟨"http", "x", "/a:b/", "", "q", "f"⟩ =
      clean_filename ⟨"https", "site.example.com", "/a:b/", "", "", ""⟩ := by
  refine ⟨⟨by decide, ?_⟩, rfl, ?_⟩
  · exact (clean_filename_amended ⟨"https", "site.example.com", "/a:b/", "", "", ""⟩).2.2
      (by decide)
  · exact (clean_filename_amended ⟨"https", "site.example.com", "/a:b/", "", "", ""⟩).1
      ⟨"http", "x", "/a:b/", "", "q", "f"⟩ rfl

/-! ## Text normalizer

`BaseContentSplitter.process_content` (src/parsing/BaseParsing.py lines
28-75) cleans the converted Markdown with a fixed sequence of
`str.replace` / `re.sub` rewrites.  Each rewrite is embedded as a scanner
over `List Char` implementing the leftmost, non-overlapping, greedy
semantics of the concrete pattern.  The `\s` and `\w` character classes are
modelled over the ASCII range (the inputs of interest are ASCII). -/

/-- Python regex `\s` (ASCII range). -/
def isPySpace (c : Char) : Bool :=
  c == ' ' || c == '\t' || c == '\n' || c == '\r' || c == '\x0b' || c == '\x0c'

/-- Python regex `\w` (ASCII range). -/
def isPyWord (c : Char) : Bool :=
  c.isAlphanum || c == '_'

/-- Python `str.replace(old, new)` specialised to a two-character pattern
`[a, b]` replaced by the single character `r` (used for
`replace('\\-', '-')` and `replace('\\.', '.')`): leftmost,
non-overlapping. -/
def replacePair (a b r : Char) : List Char → List Char
  | [] => []
  | [c] => [c]
  | c1 :: c2 :: rest =>
      if c1 = a ∧ c2 = b then r :: replacePair a b r rest
      else c1 :: replacePair a b r (c2 :: rest)

/-- Pass 2, `re.sub(r'\\([^\\])', r'\1', text)`: a backslash followed by a
non-backslash is replaced by that following character; at a
backslash-backslash pair no match starts, so the scan advances one
character. -/
def subEscape : List Char → List Char
  | [] => []
  | [c] => [c]
  | c1 :: c2 :: rest =>
      if c1 = '\\' ∧ c2 ≠ '\\' then c2 :: subEscape rest
      else c1 :: subEscape (c2 :: rest)

/-- Helper for `re.sub(r'\[\#\]\((.*?)\)\s*([#]+.*)', r'\2', text)`: after
the literal `[#](` has been consumed, look for the shortest newline-free
extension of the lazy group that is closed by `')'` and followed by
whitespace and at least one `'#'`; return the text captured by group 2
(`[#]+.*`, the hashes and the rest of the line) and the remainder of the
input after the match. -/
def findAnchorClose : List Char → Option (List Char × List Char)
  | [] => none
  | c :: rest =>
      if c = '\n' then none
      else if c = ')' then
        let rest2 := rest.dropWhile isPySpace
        if rest2.head? = some '#' then
          let afterH := rest2.dropWhile (· == '#')
          some (rest2.takeWhile (· == '#') ++ afterH.takeWhile (· ≠ '\n'),
            afterH.dropWhile (· ≠ '\n'))
        else findAnchorClose rest
      else findAnchorClose rest

theorem findAnchorClose_length :
    ∀ l g rem, findAnchorClose l = some (g, rem) → rem.length ≤ l.length := by
  intro l
  induction l with
  | nil => intro g rem h; simp [findAnchorClose] at h
  | cons c rest ih =>
      intro g rem h
      rw [findAnchorClose] at h
      by_cases hn : c = '\n'
      · rw [if_pos hn] at h; exact absurd h (by simp)
      · rw [if_neg hn] at h
        by_cases hc : c = ')'
        · rw [if_pos hc] at h
          by_cases hh : (rest.dropWhile isPySpace).head? = some '#'
          · rw [if_pos hh] at h
            simp only [Option.some.injEq, Prod.mk.injEq] at h
            have h2 := h.2
            have b1 : (((rest.dropWhile isPySpace).dropWhile (· == '#')).dropWhile
                (· ≠ '\n')).length ≤ rest.length := by
              calc (((rest.dropWhile isPySpace).dropWhile (· == '#')).dropWhile
                    (· ≠ '\n')).length
                  ≤ ((rest.dropWhile isPySpace).dropWhile (· == '#')).length :=
                    length_dropWhile_le _ _
                _ ≤ (rest.dropWhile isPySpace).length := length_dropWhile_le _ _
                _ ≤ rest.length := length_dropWhile_le _ _
            rw [← h2]
            simp only [List.length_cons]
            omega
          · rw [if_neg hh] at h
            have := ih g rem h
            simp only [List.length_cons]
            omega
        · rw [if_neg hc] at h
          have := ih g rem h
          simp only [List.length_cons]
          omega

/-- Pass 3, `re.sub(r'\[\#\]\((.*?)\)\s*([#]+.*)', r'\2', text)`: scan for the
literal `[#](`; on a successful continuation replace the whole match by the
captured heading (`findAnchorClose`), otherwise advance one character. -/
def fixAnchor (l : List Char) : List Char :=
  match l with
  | [] => []
  | c :: rest =>
      if c = '[' ∧ rest.take 3 = ['#', ']', '('] then
        match hfc : findAnchorClose (rest.drop 3) with
        | some (g, rem) => g ++ fixAnchor rem
        | none => c :: fixAnchor rest
      else c :: fixAnchor rest
termination_by l.length
decreasing_by
  · have h1 : rem.length ≤ (rest.drop 3).length :=
      findAnchorClose_length _ _ _ hfc
    have h2 : (rest.drop 3).length ≤ rest.length := by
      simp [List.length_drop]
    simp only [List.length_cons]
    omega
  · simp [List.length_cons]
  · simp [List.length_cons]

/-- A run of `n` newline characters. -/
def newlineRun (n : Nat) : List Char := List.replicate n '\n'

/-- What `re.sub(r'\n{3,}', '\n\n', text)` emits for a maximal newline run
of length `n`. -/
def collapseRun (n : Nat) : List Char :=
  if 3 ≤ n then ['\n', '\n'] else newlineRun n

/-- Scanner for `re.sub(r'\n{3,}', '\n\n', text)`: `n` is the length of the
current (still open) newline run. -/
def collapseNLAux : Nat → List Char → List Char
  | n, [] => collapseRun n
  | n, c :: rest =>
      if c = '\n' then collapseNLAux (n + 1) rest
      else collapseRun n ++ c :: collapseNLAux 0 rest

/-- Pass 4, `re.sub(r'\n{3,}', '\n\n', text)`: collapse every maximal run of three
or more newlines to exactly two newlines. -/
def collapseNL (l : List Char) : List Char := collapseNLAux 0 l

/-- Decides whether the text contains a run of three consecutive newlines
(`n` is the length of the current run). -/
def hasTripleNewlineAux : Nat → List Char → Bool
  | _, [] => false
  | n, c :: rest =>
      if c = '\n' then (if 3 ≤ n + 1 then true else hasTripleNewlineAux (n + 1) rest)
      else hasTripleNewlineAux 0 rest

/-- First substitution of step 4,
`re.sub(r'```\s*(\w+)?\s*\n\s*', r'```\1\n', text)`: at an opening fence,
with `u` the maximal whitespace run after the backticks, `w` the maximal
word run after `u` and `v` the maximal whitespace run after `w`, the greedy
backtracking engine matches `u ++ w ++ v` when `w` is nonempty and `v`
contains a newline (rewriting to the fence, the word as language tag and a
single newline), otherwise matches `u` alone when `u` contains a newline
(rewriting to fence plus single newline); otherwise there is no match at
this position. -/
def fixOpen (l : List Char) : List Char :=
  match l with
  | [] => []
  | c :: rest =>
      if c = '`' ∧ rest.take 2 = ['`', '`'] then
        let r0 := rest.drop 2
        let u := r0.takeWhile isPySpace
        let r1 := r0.dropWhile isPySpace
        let w := r1.takeWhile isPyWord
        let r2 := r1.dropWhile isPyWord
        let v := r2.takeWhile isPySpace
        let r3 := r2.dropWhile isPySpace
        if w ≠ [] ∧ '\n' ∈ v then
          '`' :: '`' :: '`' :: (w ++ '\n' :: fixOpen r3)
        else if '\n' ∈ u then
          '`' :: '`' :: '`' :: '\n' :: fixOpen r1
        else c :: fixOpen rest
      else c :: fixOpen rest
termination_by l.length
decreasing_by
  · have h3 : ((rest.drop 2).dropWhile isPySpace |>.dropWhile isPyWord
        |>.dropWhile isPySpace).length ≤ rest.length := by
      calc ((rest.drop 2).dropWhile isPySpace |>.dropWhile isPyWord
            |>.dropWhile isPySpace).length
          ≤ ((rest.drop 2).dropWhile isPySpace |>.dropWhile isPyWord).length :=
            length_dropWhile_le _ _
        _ ≤ ((rest.drop 2).dropWhile isPySpace).length := length_dropWhile_le _ _
        _ ≤ (rest.drop 2).length := length_dropWhile_le _ _
        _ ≤ rest.length := by simp [List.length_drop]
    simp only [List.length_cons]
    omega
  · have h1 : ((rest.drop 2).dropWhile isPySpace).length ≤ rest.length := by
      calc ((rest.drop 2).dropWhile isPySpace).length
          ≤ (rest.drop 2).length := length_dropWhile_le _ _
        _ ≤ rest.length := by simp [List.length_drop]
    simp only [List.length_cons]
    omega
  · simp [List.length_cons]
  · simp [List.length_cons]

/-- Second substitution of step 4, `re.sub(r'\n\s*```', r'\n```', text)`:
a newline whose following whitespace run reaches three backticks has that
whitespace removed; the scan continues after the backticks. -/
def fixClose (l : List Char) : List Char :=
  match l with
  | [] => []
  | c :: rest =>
      if c = '\n' then
        let r1 := rest.dropWhile isPySpace
        if r1.take 3 = ['`', '`', '`'] then
          '\n' :: '`' :: '`' :: '`' :: fixClose (r1.drop 3)
        else c :: fixClose rest
      else c :: fixClose rest
termination_by l.length
decreasing_by
  · have h1 : ((rest.dropWhile isPySpace).drop 3).length ≤ rest.length := by
      calc ((rest.dropWhile isPySpace).drop 3).length
          ≤ (rest.dropWhile isPySpace).length := by simp [List.length_drop]
        _ ≤ rest.length := length_dropWhile_le _ _
    simp only [List.length_cons]
    omega
  · simp [List.length_cons]
  · simp [List.length_cons]

/-- The cleanup sequence of `BaseContentSplitter.process_content`
(src/parsing/BaseParsing.py lines 44-59), applied in source order:
un-escape `\-` and `\.`, un-escape remaining single-character escapes,
repair self-referencing heading anchors, collapse newline runs, and fix the
spacing after opening and before closing code fences. -/
def textNormalize (s : String) : String :=
  ⟨fixClose (fixOpen (collapseNL (fixAnchor (subEscape
    (replacePair '\\' '.' '.' (replacePair '\\' '-' '-' s.data))))))⟩

/-- Both substitutions of normalization step 4 (source lines 58-59), in
source order. -/
def fixCodeFences (l : List Char) : List Char := fixClose (fixOpen l)

/-! ### Support lemmas for the scanners -/

/-- Predicate `headNot p l`: `l` does not start with a `p`-character. -/
def headNot (p : Char → Bool) (l : List Char) : Bool :=
  match l with
  | [] => true
  | c :: _ => !(p c)

theorem takeWhile_append_all (p : Char → Bool) :
    ∀ (u l : List Char), (∀ c ∈ u, p c = true) → headNot p l = true →
      (u ++ l).takeWhile p = u ∧ (u ++ l).dropWhile p = l := by
  intro u
  induction u with
  | nil =>
      intro l _ hl
      cases l with
      | nil => simp
      | cons c t =>
          simp only [headNot, Bool.not_eq_true'] at hl
          simp [List.takeWhile_cons, List.dropWhile_cons, hl]
  | cons c u ih =>
      intro l hu hl
      have hc : p c = true := hu c (by simp)
      have := ih l (fun d hd => hu d (by simp [hd])) hl
      simp [List.takeWhile_cons, List.dropWhile_cons, hc, this.1, this.2]

theorem isPyWord_not_space {c : Char} (h : isPyWord c = true) : isPySpace c = false := by
  by_contra hs
  rw [Bool.not_eq_false] at hs
  simp only [isPySpace, Bool.or_eq_true, beq_iff_eq] at hs
  rcases hs with ((((h1 | h1) | h1) | h1) | h1) | h1 <;> subst h1 <;> simp [isPyWord] at h

theorem isPySpace_not_word {c : Char} (h : isPySpace c = true) : isPyWord c = false := by
  by_contra hw
  rw [Bool.not_eq_false] at hw
  rw [isPyWord_not_space hw] at h
  exact Bool.false_ne_true h

/-! ### Claim C8 -/

/-- Claim C8 (confirmed): the first two normalization passes un-escape
`\-` and `\.` and then every remaining single-character escape `\X` into
`X`, except that a backslash followed by a backslash is left in place (the
scan advances over the first backslash); in particular the four-character
input `\-\.` becomes the two-character output `-.`. -/
theorem unescape_spec :
    subEscape (replacePair '\\' '.' '.' (replacePair '\\' '-' '-' "\\-\\.".data)) =
      "-.".data ∧
    (∀ (c : Char) (rest : List Char), c ≠ '\\' →
      subEscape ('\\' :: c :: rest) = c :: subEscape rest) ∧
    (∀ rest : List Char,
      subEscape ('\\' :: '\\' :: rest) = '\\' :: subEscape ('\\' :: rest)) := by
  refine ⟨by decide, ?_, ?_⟩
  · intro c rest hc
    simp [subEscape, hc]
  · intro rest
    simp [subEscape]

/-- Witness for `unescape_spec` at the escape `\x`. -/
theorem unescape_spec_witness :
    ('x' : Char) ≠ '\\' ∧
      subEscape ('\\' :: 'x' :: "abc".data) = 'x' :: subEscape "abc".data :=
  ⟨by decide, unescape_spec.2.1 'x' "abc".data (by decide)⟩

/-! ### Claim C3 -/

theorem collapseNLAux_no_newline :
    ∀ (l : List Char) (n : Nat), '\n' ∉ l → collapseNLAux n l = collapseRun n ++ l := by
  intro l
  induction l with
  | nil => intro n _; simp [collapseNLAux]
  | cons c t ih =>
      intro n h
      have hc : c ≠ '\n' := fun hc => h (by simp [hc])
      have ht : '\n' ∉ t := fun ht => h (by simp [ht])
      rw [collapseNLAux, if_neg hc, ih 0 ht]
      simp [collapseRun, newlineRun]

theorem collapseNLAux_newlineRun :
    ∀ (k : Nat) (l : List Char) (n : Nat),
      collapseNLAux n (newlineRun k ++ l) = collapseNLAux (n + k) l := by
  intro k
  induction k with
  | zero => intro l n; simp [newlineRun]
  | succ k ih =>
      intro l n
      have : newlineRun (k + 1) ++ l = '\n' :: (newlineRun k ++ l) := by
        simp [newlineRun, List.replicate_succ]
      rw [this, collapseNLAux, if_pos rfl, ih]
      congr 1
      omega

theorem collapseNLAux_prefix_no_newline :
    ∀ (a l : List Char), '\n' ∉ a →
      collapseNLAux 0 (a ++ l) = a ++ collapseNLAux 0 l := by
  intro a
  induction a with
  | nil => intro l _; simp
  | cons c t ih =>
      intro l h
      have hc : c ≠ '\n' := fun hc => h (by simp [hc])
      have ht : '\n' ∉ t := fun ht => h (by simp [ht])
      rw [List.cons_append, collapseNLAux, if_neg hc, ih l ht]
      simp [collapseRun, newlineRun]

theorem collapseNLAux_id :
    ∀ (l : List Char) (n : Nat), n ≤ 2 → hasTripleNewlineAux n l = false →
      collapseNLAux n l = newlineRun n ++ l := by
  intro l
  induction l with
  | nil =>
      intro n hn _
      rw [collapseNLAux, collapseRun, if_neg (by omega)]
      simp
  | cons c t ih =>
      intro n hn h
      rw [hasTripleNewlineAux] at h
      by_cases hc : c = '\n'
      · subst hc
        rw [if_pos rfl] at h
        have h3 : ¬ 3 ≤ n + 1 := by
          intro h3
          rw [if_pos h3] at h
          simp at h
        rw [if_neg h3] at h
        rw [collapseNLAux, if_pos rfl, ih (n + 1) (by omega) h]
        simp [newlineRun, List.replicate_succ']
      · rw [if_neg hc] at h
        rw [collapseNLAux, if_neg hc, ih 0 (by omega) h,
          collapseRun, if_neg (by omega)]
        simp [newlineRun]

/-- Claim C3 (counterexample): the claim states that blank lines between an
opening and a closing fence are left untouched.  The pass is applied to the
whole text uniformly: in `"```\nx\n\n\n\ny\n```"` the run of four newlines
sits between the fences and is still collapsed to two. -/
theorem collapse_blank_counterexample :
    collapseNL "```\nx\n\n\n\ny\n```".data = "```\nx\n\ny\n```".data ∧
    collapseNL "```\nx\n\n\n\ny\n```".data ≠ "```\nx\n\n\n\ny\n```".data := by
  constructor
  · decide
  · decide

/-- Claim C3 (amended): the pass collapses every maximal run of three or
more consecutive newlines to exactly two newlines, uniformly — including
runs that fall inside fenced code blocks; text with no three-newline run
(in particular a single blank line inside a fence, which is only two
newlines) is left unchanged; a string with 4 consecutive blank lines (5
newlines) yields exactly 1 blank line (2 newlines). -/
theorem collapse_blank_amended :
    (∀ (k : Nat) (a b : List Char), 3 ≤ k → '\n' ∉ a → '\n' ∉ b →
      collapseNL (a ++ newlineRun k ++ b) = a ++ '\n' :: '\n' :: b) ∧
    (∀ l : List Char, hasTripleNewlineAux 0 l = false → collapseNL l = l) ∧
    collapseNL "a\n\n\n\n\nb".data = "a\n\nb".data := by
  refine ⟨?_, ?_, by decide⟩
  · intro k a b hk ha hb
    rw [collapseNL, List.append_assoc, collapseNLAux_prefix_no_newline a _ ha,
      collapseNLAux_newlineRun k b 0, Nat.zero_add,
      collapseNLAux_no_newline b k hb, collapseRun, if_pos (by omega)]
    rfl
  · intro l h
    rw [collapseNL, collapseNLAux_id l 0 (by omega) h]
    rfl

/-- Witness for `collapse_blank_amended`: a run of 5 newlines between
newline-free fragments collapses to a single blank line, and a fenced block
containing a single blank line is untouched. -/
theorem collapse_blank_amended_witness :
    ((3:Nat) ≤ 5 ∧ '\n' ∉ "x".data ∧ '\n' ∉ "y".data ∧
      collapseNL ("x".data ++ newlineRun 5 ++ "y".data) =
        "x".data ++ '\n' :: '\n' :: "y".data) ∧
    (hasTripleNewlineAux 0 "```\na\n\nb\n```".data = false ∧
      collapseNL "```\na\n\nb\n```".data = "```\na\n\nb\n```".data) :=
  ⟨⟨by decide, by decide, by decide,
      collapse_blank_amended.1 5 "x".data "y".data (by decide) (by decide) (by decide)⟩,
    ⟨by decide, collapse_blank_amended.2.1 "```\na\n\nb\n```".data (by decide)⟩⟩

/-! ### Claim C9 -/

theorem fixClose_ws_fence (u rest : List Char) (hu : ∀ c ∈ u, isPySpace c = true) :
    fixClose ('\n' :: (u ++ '`' :: '`' :: '`' :: rest)) =
      '\n' :: '`' :: '`' :: '`' :: fixClose rest := by
  have hdrop : (u ++ '`' :: '`' :: '`' :: rest).dropWhile isPySpace =
      '`' :: '`' :: '`' :: rest :=
    (takeWhile_append_all isPySpace u _ hu (by simp [headNot, isPySpace])).2
  rw [fixClose]
  simp only [if_pos rfl, hdrop]
  simp [List.take, List.drop]

theorem fixOpen_ws_newline (u rest : List Char)
    (hu : ∀ c ∈ u, isPySpace c = true) (hnl : '\n' ∈ u)
    (hrest : headNot isPySpace rest = true)
    (hcond : rest.takeWhile isPyWord = [] ∨
      '\n' ∉ (rest.dropWhile isPyWord).takeWhile isPySpace) :
    fixOpen ('`' :: '`' :: '`' :: (u ++ rest)) =
      '`' :: '`' :: '`' :: '\n' :: fixOpen rest := by
  have h1 := takeWhile_append_all isPySpace u rest hu hrest
  rw [fixOpen]
  rw [if_pos (by simp [List.take])]
  simp only [List.drop, h1.1, h1.2]
  rw [if_neg (by rcases hcond with h | h <;> simp [h]), if_pos hnl]

theorem fixOpen_tag_absorb (u w v rest : List Char)
    (hu : ∀ c ∈ u, isPySpace c = true)
    (hw : ∀ c ∈ w, isPyWord c = true) (hwne : w ≠ [])
    (hv : ∀ c ∈ v, isPySpace c = true) (hnl : '\n' ∈ v)
    (hrest : headNot isPySpace rest = true) :
    fixOpen ('`' :: '`' :: '`' :: (u ++ (w ++ (v ++ rest)))) =
      '`' :: '`' :: '`' :: (w ++ '\n' :: fixOpen rest) := by
  have hvne : v ≠ [] := by rintro rfl; simp at hnl
  have hws : headNot isPySpace (w ++ (v ++ rest)) = true := by
    cases w with
    | nil => exact absurd rfl hwne
    | cons c t => simp [headNot, isPyWord_not_space (hw c (by simp))]
  have hvw : headNot isPyWord (v ++ rest) = true := by
    cases v with
    | nil => exact absurd rfl hvne
    | cons c t => simp [headNot, isPySpace_not_word (hv c (by simp))]
  have h1 := takeWhile_append_all isPySpace u (w ++ (v ++ rest)) hu hws
  have h2 := takeWhile_append_all isPyWord w (v ++ rest) hw hvw
  have h3 := takeWhile_append_all isPySpace v rest hv hrest
  rw [fixOpen]
  rw [if_pos (by simp [List.take])]
  simp only [List.drop, h1.1, h1.2, h2.1, h2.2, h3.1, h3.2]
  rw [if_pos ⟨hwne, hnl⟩]

/-- Claim C9 (counterexample): the claim states that an opening fence
followed by a blank line then a code line is rewritten so that the fence is
directly followed by the code line.  For `"```\n\nfoo\nbar\n```"` the first
code line is the bare word `foo` followed by a newline, and the greedy
optional language-tag group of `re.sub(r'```\s*(\w+)?\s*\n\s*', r'```\1\n')`
absorbs it onto the fence line: the pass produces `"```foo\nbar\n```"`, not
the claimed `"```\nfoo\nbar\n```"`. -/
theorem fix_code_counterexample :
    fixCodeFences "```\n\nfoo\nbar\n```".data = "```foo\nbar\n```".data ∧
    fixCodeFences "```\n\nfoo\nbar\n```".data ≠ "```\nfoo\nbar\n```".data := by
  constructor
  · simp +decide [fixCodeFences, fixOpen, fixClose, isPySpace, isPyWord,
      List.dropWhile, List.takeWhile]
  · simp +decide [fixCodeFences, fixOpen, fixClose, isPySpace, isPyWord,
      List.dropWhile, List.takeWhile]

/-- Claim C9 (amended): at an opening fence whose following whitespace
contains a newline, the pass removes the whitespace and leaves the fence
directly followed by a single newline and the remaining text — provided the
text after the whitespace does not begin with a word that is itself
followed by newline-containing whitespace; in that exceptional case
(e.g. a bare word as the first code line) the word is absorbed onto the
fence line as a language tag.  Whitespace standing between a newline and a
closing fence is always removed.  A fence, blank line and non-absorbable
code line `x = 1` normalizes so the fence is directly followed by the code
line. -/
theorem fix_code_amended :
    (∀ u rest : List Char, (∀ c ∈ u, isPySpace c = true) → '\n' ∈ u →
      headNot isPySpace rest = true →
      (rest.takeWhile isPyWord = [] ∨
        '\n' ∉ (rest.dropWhile isPyWord).takeWhile isPySpace) →
      fixOpen ('`' :: '`' :: '`' :: (u ++ rest)) =
        '`' :: '`' :: '`' :: '\n' :: fixOpen rest) ∧
    (∀ u w v rest : List Char, (∀ c ∈ u, isPySpace c = true) →
      (∀ c ∈ w, isPyWord c = true) → w ≠ [] →
      (∀ c ∈ v, isPySpace c = true) → '\n' ∈ v →
      headNot isPySpace rest = true →
      fixOpen ('`' :: '`' :: '`' :: (u ++ (w ++ (v ++ rest)))) =
        '`' :: '`' :: '`' :: (w ++ '\n' :: fixOpen rest)) ∧
    (∀ u rest : List Char, (∀ c ∈ u, isPySpace c = true) →
      fixClose ('\n' :: (u ++ '`' :: '`' :: '`' :: rest)) =
        '\n' :: '`' :: '`' :: '`' :: fixClose rest) ∧
    fixCodeFences "```\n\nx = 1\n```".data = "```\nx = 1\n```".data := by
  refine ⟨fixOpen_ws_newline, fixOpen_tag_absorb, fixClose_ws_fence, ?_⟩
  simp +decide [fixCodeFences, fixOpen, fixClose, isPySpace, isPyWord,
    List.dropWhile, List.takeWhile]

/-- Witness for `fix_code_amended`: concrete instances of the three
conditional clauses. -/
theorem fix_code_amended_witness :
    ((∀ c ∈ "\n\n".data, isPySpace c = true) ∧ '\n' ∈ "\n\n".data ∧
      headNot isPySpace "x = 1\n```".data = true ∧
      ("x = 1\n```".data.takeWhile isPyWord = [] ∨
        '\n' ∉ ("x = 1\n```".data.dropWhile isPyWord).takeWhile isPySpace) ∧
      fixOpen ('`' :: '`' :: '`' :: ("\n\n".data ++ "x = 1\n```".data)) =
        '`' :: '`' :: '`' :: '\n' :: fixOpen "x = 1\n```".data) ∧
    (fixOpen ('`' :: '`' :: '`' :: ("\n".data ++ ("py".data ++ ("\n".data ++ "z(1)".data)))) =
      '`' :: '`' :: '`' :: ("py".data ++ '\n' :: fixOpen "z(1)".data)) ∧
    (fixClose ('\n' :: (" \n ".data ++ '`' :: '`' :: '`' :: "x".data)) =
      '\n' :: '`' :: '`' :: '`' :: fixClose "x".data) := by
  refine ⟨⟨by decide, by decide, by decide, ?_, ?_⟩, ?_, ?_⟩
  · right; decide
  · exact fix_code_amended.1 "\n\n".data "x = 1\n```".data (by decide) (by decide)
      (by decide) (by right; decide)
  · exact fix_code_amended.2.1 "\n".data "py".data "\n".data "z(1)".data (by decide)
      (by decide) (by decide) (by decide) (by decide) (by decide)
  · exact fix_code_amended.2.2.1 " \n ".data "x".data (by decide)

/-! ## Link discovery

`AstroParser.extract_links` (src/parsing/astro/AstroParsing.py lines 37-53)
works on `href` attribute strings, so the external `urllib` collaborators
`urlparse` and `urljoin` are modelled on strings here.  The model covers
the grammar `scheme://netloc/path?query#fragment`; the rarely-used params
component (split from a `';'` in the last path segment) and dot-segment
removal in relative references are outside the modelled fragment. -/

/-- Split at the first occurrence of `c`: the part before it, and the part
after it if `c` occurs. -/
def splitOnFirst (c : Char) : List Char → List Char × Option (List Char)
  | [] => ([], none)
  | x :: rest =>
      if x = c then ([], some rest)
      else
        let p := splitOnFirst c rest
        (x :: p.1, p.2)

/-- The characters Python allows in a URL scheme after the initial letter. -/
def isSchemeChar (c : Char) : Bool :=
  c.isAlphanum || c == '+' || c == '-' || c == '.'

/-- Modelled after `urllib.parse.urlparse` (external collaborator): split
off the fragment at the first `'#'`, recognise a scheme before a `':'`
(initial letter, scheme characters, lower-cased), a netloc after `"//"`
running to the next `'/'` or `'?'`, and a query after the first `'?'`. -/
def urlparseStr (s : String) : Url :=
  let bf := (splitOnFirst '#' s.data).1
  let fragTail := (splitOnFirst '#' s.data).2
  let cand := bf.takeWhile (· ≠ ':')
  let hasScheme : Bool :=
    decide (cand.length < bf.length) && !cand.isEmpty &&
      cand.headI.isAlpha && cand.all isSchemeChar
  let scheme : String := if hasScheme then ⟨cand.map Char.toLower⟩ else ""
  let rest := if hasScheme then bf.drop (cand.length + 1) else bf
  let netloc : String :=
    match rest with
    | '/' :: '/' :: r => ⟨r.takeWhile (fun c => c ≠ '/' ∧ c ≠ '?')⟩
    | _ => ""
  let rest2 :=
    match rest with
    | '/' :: '/' :: r => r.dropWhile (fun c => c ≠ '/' ∧ c ≠ '?')
    | _ => rest
  { scheme := scheme, netloc := netloc, path := ⟨(splitOnFirst '?' rest2).1⟩,
    params := "", query := ⟨((splitOnFirst '?' rest2).2).getD []⟩,
    fragment := ⟨fragTail.getD []⟩ }

/-- Does the string start with `'/'`? -/
def headIsSlash (s : String) : Bool :=
  match s.data with
  | '/' :: _ => true
  | _ => false

/-- RFC 3986 path merge (no dot-segment handling): replace everything after
the last `'/'` of the base path by the reference path. -/
def mergePaths (bp rp : String) : String :=
  if bp = "" then "/" ++ rp
  else ⟨(bp.data.reverse.dropWhile (· ≠ '/')).reverse ++ rp.data⟩

/-- Modelled after `urllib.parse.urljoin` (external collaborator; spec §4.2
"standard URL-resolution rules"): an empty reference yields the base; a
reference with a scheme stands alone; a network-path reference takes the
base's scheme; an empty path keeps the base path (and base query when the
reference has none); an absolute path replaces the base path; a relative
path is merged onto the base path. -/
def urljoin (base : Url) (ref : String) : Url :=
  if ref = "" then base
  else
    let r := urlparseStr ref
    if r.scheme ≠ "" then r
    else if r.netloc ≠ "" then
      { scheme := base.scheme, netloc := r.netloc, path := r.path,
        params := r.params, query := r.query, fragment := r.fragment }
    else if r.path = "" then
      { scheme := base.scheme, netloc := base.netloc, path := base.path,
        params := base.params,
        query := if r.query ≠ "" then r.query else base.query,
        fragment := r.fragment }
    else if headIsSlash r.path then
      { scheme := base.scheme, netloc := base.netloc, path := r.path,
        params := "", query := r.query, fragment := r.fragment }
    else
      { scheme := base.scheme, netloc := base.netloc,
        path := mergePaths base.path r.path,
        params := "", query := r.query, fragment := r.fragment }

/-- Python `href.startswith('#')`. -/
def startsWithHash (h : String) : Bool :=
  match h.data with
  | '#' :: _ => true
  | _ => false

/-- Model of `AstroParser.is_valid_url` (src/parsing/astro/AstroParsing.py lines
16-20): the URL's netloc must equal the netloc of the parser's `base_url`
(the crawl root). -/
def is_valid_url (baseUrl u : Url) : Bool :=
  u.netloc == baseUrl.netloc

/-- Model of `AstroParser.extract_links` (src/parsing/astro/AstroParsing.py lines
37-53): for every anchor `href`, skip in-page fragments, resolve against
the page's own URL (`base`), normalize, and keep the result when it is on
the crawl root's host; the Python `set` is modelled by `dedup`. -/
def extract_links (baseUrl : Url) (hrefs : List String) (base : Url) : List Url :=
  (((hrefs.filter (fun h => !startsWithHash h)).map
      (fun h => normalize_identifier (urljoin base h))).filter
    (fun n => is_valid_url baseUrl n)).dedup

theorem normalize_identifier_idem (u : Url) :
    normalize_identifier (normalize_identifier u) = normalize_identifier u := by
  simp [normalize_identifier, rstripSlash_idem]

theorem startsWithHash_scheme_empty {h : String} (hh : startsWithHash h = true) :
    (urlparseStr h).scheme = "" := by
  unfold startsWithHash at hh
  cases hd : h.data with
  | nil => rw [hd] at hh; simp at hh
  | cons c t =>
      rw [hd] at hh
      split at hh
      · rename_i tail heq
        injection heq with hc ht
        subst hc
        unfold urlparseStr
        rw [hd]
        simp [splitOnFirst]
      · simp at hh

/-- Claim C5 (confirmed): `extract_links` returns only normalized URLs on
the crawl root's host; fragment-only hrefs contribute nothing; a relative
(root-relative) destination is resolved against the page's own URL `base`,
not the crawl root; and an absolute link to a different host is never
returned (dropping it leaves the result unchanged). -/
theorem extract_links_spec (baseUrl base : Url) :
    (∀ hrefs : List String, ∀ u ∈ extract_links baseUrl hrefs base,
      u.netloc = baseUrl.netloc ∧ normalize_identifier u = u) ∧
    (∀ (h : String) (hs : List String), startsWithHash h = true →
      extract_links baseUrl (h :: hs) base = extract_links baseUrl hs base) ∧
    (∀ (h : String) (hs : List String), startsWithHash h = false →
      (urlparseStr h).scheme = "" → (urlparseStr h).netloc = "" →
      (urlparseStr h).path ≠ "" → headIsSlash (urlparseStr h).path = true →
      base.netloc = baseUrl.netloc → h ≠ "" →
      normalize_identifier
          { scheme := base.scheme, netloc := base.netloc,
            path := (urlparseStr h).path, params := "",
            query := (urlparseStr h).query,
            fragment := (urlparseStr h).fragment } ∈
        extract_links baseUrl (h :: hs) base) ∧
    (∀ (h : String) (hs : List String),
      (urlparseStr h).scheme ≠ "" → (urlparseStr h).netloc ≠ baseUrl.netloc →
      extract_links baseUrl (h :: hs) base = extract_links baseUrl hs base) := by
  refine ⟨?_, ?_, ?_, ?_⟩
  · intro hrefs u hu
    unfold extract_links at hu
    rw [List.mem_dedup] at hu
    have hval := List.of_mem_filter hu
    have hmem := List.mem_of_mem_filter hu
    rw [List.mem_map] at hmem
    obtain ⟨h, _, rfl⟩ := hmem
    refine ⟨?_, normalize_identifier_idem _⟩
    simpa [is_valid_url] using hval
  · intro h hs hh
    unfold extract_links
    simp [List.filter_cons, hh]
  · intro h hs hh hscheme hnetloc hpath hslash hbase hne
    unfold extract_links
    rw [List.mem_dedup]
    have hjoin : urljoin base h =
        { scheme := base.scheme, netloc := base.netloc,
          path := (urlparseStr h).path, params := "",
          query := (urlparseStr h).query,
          fragment := (urlparseStr h).fragment } := by
      unfold urljoin
      rw [if_neg hne, if_neg (by simp [hscheme]), if_neg (by simp [hnetloc]),
        if_neg (by simp [hpath]), if_pos hslash]
    apply List.mem_filter_of_mem
    · rw [List.mem_map]
      exact ⟨h, by simp [List.filter_cons, hh], by rw [hjoin]⟩
    · simp [is_valid_url, normalize_identifier, hbase]
  · intro h hs hscheme hnet
    have hh : startsWithHash h = false := by
      by_contra hc
      rw [Bool.not_eq_false] at hc
      exact hscheme (startsWithHash_scheme_empty hc)
    have hne : h ≠ "" := by
      intro he
      apply hscheme
      rw [he]
      rfl
    unfold extract_links
    rw [List.filter_cons_of_pos (by simp [hh]), List.map_cons,
      List.filter_cons_of_neg]
    simp only [Bool.not_eq_true]
    have hjoin : urljoin base h = urlparseStr h := by
      unfold urljoin
      rw [if_neg hne, if_pos hscheme]
    rw [hjoin]
    simp [is_valid_url, normalize_identifier, hnet]

/-- Witness for `extract_links_spec` on the spec's example: the crawl root
is on `site.example.com`; an absolute link to `other.example.com`, a pure
fragment link, and a root-relative link `/docs/` on a page of the root
host. -/
theorem extract_links_spec_witness :
    (startsWithHash "#frag" = true ∧
      extract_links ⟨"https", "site.example.com", "", "", "", ""⟩
          ["#frag", "/docs/"] ⟨"https", "site.example.com", "/page", "", "", ""⟩ =
        extract_links ⟨"https", "site.example.com", "", "", "", ""⟩
          ["/docs/"] ⟨"https", "site.example.com", "/page", "", "", ""⟩) ∧
    ((urlparseStr "https://other.example.com/x").scheme ≠ "" ∧
      (urlparseStr "https://other.example.com/x").netloc ≠ "site.example.com" ∧
      extract_links ⟨"https", "site.example.com", "", "", "", ""⟩
          ["https://other.example.com/x", "/docs/"]
          ⟨"https", "site.example.com", "/page", "", "", ""⟩ =
        extract_links ⟨"https", "site.example.com", "", "", "", ""⟩
          ["/docs/"] ⟨"https", "site.example.com", "/page", "", "", ""⟩) ∧
    normalize_identifier
        { scheme := "https", netloc := "site.example.com",
          path := (urlparseStr "/docs/").path, params := "",
          query := (urlparseStr "/docs/").query,
          fragment := (urlparseStr "/docs/").fragment } ∈
      extract_links ⟨"https", "site.example.com", "", "", "", ""⟩
        ["/docs/", "#x"] ⟨"https", "site.example.com", "/page", "", "", ""⟩ := by
  refine ⟨⟨by decide, ?_⟩, ⟨by decide, by decide, ?_⟩, ?_⟩
  · exact (extract_links_spec ⟨"https", "site.example.com", "", "", "", ""⟩
      ⟨"https", "site.example.com", "/page", "", "", ""⟩).2.1 "#frag" ["/docs/"]
      (by decide)
  · exact (extract_links_spec ⟨"https", "site.example.com", "", "", "", ""⟩
      ⟨"https", "site.example.com", "/page", "", "", ""⟩).2.2.2
      "https://other.example.com/x" ["/docs/"] (by decide) (by decide)
  · exact (extract_links_spec ⟨"https", "site.example.com", "", "", "", ""⟩
      ⟨"https", "site.example.com", "/page", "", "", ""⟩).2.2.1 "/docs/" ["#x"]
      (by decide) (by decide) (by decide) (by decide) (by decide) (by decide)
      (by decide)

/-! ## Crawl driver

`AstroParser.get_identifiers` (src/parsing/astro/AstroParsing.py lines
55-76) and `BaseParser.collect_and_save_contents`
(src/parsing/BaseParsing.py lines 107-125).

The HTTP fetcher is the external function `env : Url → Option (List String)`
mapping a URL to the anchor hrefs of the fetched page (`none` is a failed
fetch).  The Python work-set `urls_to_process` is a hash set with arbitrary
pop order; it is modelled as a duplicate-free list popped at the head
(the spec leaves traversal order unspecified).  `fuel` bounds the number of
loop iterations; `none` means the fuel ran out, and the termination theorem
shows that enough fuel always exists.  Every function also returns the
trace of fetch attempts, reifying the calls to `fetch_content`. -/

/-- The links a fetch of `u` contributes: `extract_links` applied to the
fetched hrefs with the page's own URL as base, or nothing when the fetch
fails. -/
def pageLinks (env : Url → Option (List String)) (baseUrl : Url) (u : Url) : List Url :=
  match env u with
  | some hrefs => extract_links baseUrl hrefs u
  | none => []

/-- The `while urls_to_process` loop of `AstroParser.get_identifiers`:
pop a URL, skip it when its normalization was already collected, otherwise
fetch; on success record the normalization in `all_urls` and add the
extracted links that are in neither `all_urls` nor the pending set.
Returns `(all_urls, fetch trace)`. -/
def get_identifiers_loop (env : Url → Option (List String)) (baseUrl : Url) :
    Nat → List Url → List Url → List Url → Option (List Url × List Url)
  | 0, _, _, _ => none
  | _ + 1, [], allUrls, trace => some (allUrls, trace)
  | fuel + 1, u :: rest, allUrls, trace =>
      let n := normalize_identifier u
      if n ∈ allUrls then get_identifiers_loop env baseUrl fuel rest allUrls trace
      else
        match env u with
        | none => get_identifiers_loop env baseUrl fuel rest allUrls (trace ++ [u])
        | some hrefs =>
            let allUrls' := allUrls ++ [n]
            let newLinks := (extract_links baseUrl hrefs u).filter
              (fun l => l ∉ allUrls' ∧ l ∉ rest)
            get_identifiers_loop env baseUrl fuel (rest ++ newLinks) allUrls'
              (trace ++ [u])

/-- Model of `AstroParser.get_identifiers`: run the loop from the work set seeded
with the parser's `base_url`. -/
def get_identifiers (env : Url → Option (List String)) (baseUrl : Url)
    (fuel : Nat) : Option (List Url × List Url) :=
  get_identifiers_loop env baseUrl fuel [baseUrl] [] []

/-- The `for identifier in identifiers` loop of
`BaseParser.collect_and_save_contents`: skip identifiers whose
normalization is in `processed_items`, re-fetch the rest, and on a
successful fetch run `process_content` (abstracted to its boolean outcome
`procFn`), record failures in the success flag and extend
`processed_items`.  Returns `(success flag, fetch trace)`. -/
def casc_loop (env : Url → Option (List String)) (procFn : Url → Bool) :
    List Url → List Url → Bool → List Url → Bool × List Url
  | [], _, success, trace => (success, trace)
  | w :: rest, processed, success, trace =>
      let n := normalize_identifier w
      if n ∈ processed then casc_loop env procFn rest processed success trace
      else
        match env w with
        | none => casc_loop env procFn rest processed success (trace ++ [w])
        | some _ =>
            casc_loop env procFn rest (processed ++ [n]) (success && procFn w)
              (trace ++ [w])

/-- Model of `BaseParser.collect_and_save_contents`: discover all identifiers with
`get_identifiers`, then process each one; the result is the overall success
flag together with the discovery-phase and processing-phase fetch
traces. -/
def collect_and_save_contents (env : Url → Option (List String)) (baseUrl : Url)
    (procFn : Url → Bool) (fuel : Nat) : Option (Bool × List Url × List Url) :=
  match get_identifiers env baseUrl fuel with
  | none => none
  | some (allUrls, dtrace) =>
      let r := casc_loop env procFn allUrls [] true []
      some (r.1, dtrace, r.2)

/-- The identifiers reachable from the crawl root through links of
successfully fetched pages. -/
inductive Reaches (env : Url → Option (List String)) (baseUrl : Url) : Url → Prop where
  | root : Reaches env baseUrl baseUrl
  | step : ∀ u v, Reaches env baseUrl u → v ∈ pageLinks env baseUrl u →
      Reaches env baseUrl v

theorem extract_links_normalized {baseUrl base : Url} {hrefs : List String} {u : Url}
    (hu : u ∈ extract_links baseUrl hrefs base) : normalize_identifier u = u := by
  unfold extract_links at hu
  rw [List.mem_dedup] at hu
  have hmem := List.mem_of_mem_filter hu
  rw [List.mem_map] at hmem
  obtain ⟨h, _, rfl⟩ := hmem
  exact normalize_identifier_idem _

theorem filter_dropOne {l s : List Url} {a : Url} (hl : l.Nodup) (ha : a ∈ l)
    (hna : a ∉ s) :
    (l.filter (fun x => x ∉ s ++ [a])).length + 1 =
      (l.filter (fun x => x ∉ s)).length := by
  induction l with
  | nil => cases ha
  | cons b t ih =>
      rw [List.nodup_cons] at hl
      by_cases hba : b = a
      · subst hba
        have hbt : b ∉ t := hl.1
        rw [List.filter_cons, List.filter_cons]
        have h1 : (decide (b ∉ s ++ [b])) = false := by simp
        have h2 : (decide (b ∉ s)) = true := by simp [hna]
        rw [h1, h2, if_neg (by simp), if_pos rfl]
        have h3 : t.filter (fun x => decide (x ∉ s ++ [b])) =
            t.filter (fun x => decide (x ∉ s)) := by
          apply List.filter_congr
          intro x hx
          have hxb : x ≠ b := fun hxb => hbt (hxb ▸ hx)
          simp [hxb]
        rw [h3]
        simp
      · have hat : a ∈ t := by
          rcases List.mem_cons.mp ha with h | h
          · exact absurd h.symm hba
          · exact h
        have hrec := ih hl.2 hat
        rw [List.filter_cons, List.filter_cons]
        by_cases hbs : b ∈ s
        · have h1 : (decide (b ∉ s ++ [a])) = false := by simp [hbs]
          have h2 : (decide (b ∉ s)) = false := by simp [hbs]
          rw [h1, h2, if_neg (by simp), if_neg (by simp)]
          exact hrec
        · have h1 : (decide (b ∉ s ++ [a])) = true := by simp [hbs, hba]
          have h2 : (decide (b ∉ s)) = true := by simp [hbs]
          rw [h1, h2, if_pos rfl, if_pos rfl]
          simp only [List.length_cons]
          omega

/-- Master induction for the discovery loop: under a finite, link-closed
universe `U` the loop terminates with enough fuel, every collected
identifier was fetched exactly once, fetchable identifiers outside the
result were never fetched, the result is closed under links of fetchable
members, and every fetchable pending identifier ends up in the result. -/
theorem get_identifiers_loop_spec
    (env : Url → Option (List String)) (baseUrl : Url)
    (U : List Url) (hUnd : U.Nodup)
    (hclosed : ∀ u ∈ U, ∀ v ∈ pageLinks env baseUrl u, v ∈ U)
    (LB : Nat) (hLB : ∀ u ∈ U, (pageLinks env baseUrl u).length ≤ LB) :
    ∀ (fuel : Nat) (pending allUrls trace : List Url),
      (∀ u ∈ pending, normalize_identifier u = u ∧ u ∈ U) →
      pending.Nodup →
      (∀ u ∈ allUrls, normalize_identifier u = u ∧ u ∈ U ∧ env u ≠ none ∧
        trace.count u = 1) →
      allUrls.Nodup →
      (∀ u, normalize_identifier u = u → env u ≠ none → u ∉ allUrls →
        trace.count u = 0) →
      (∀ w ∈ allUrls, ∀ v ∈ pageLinks env baseUrl w,
        env v = none ∨ v ∈ allUrls ∨ v ∈ pending) →
      (U.filter (fun x => x ∉ allUrls)).length * (LB + 1) + pending.length < fuel →
      ∃ allF traceF,
        get_identifiers_loop env baseUrl fuel pending allUrls trace =
          some (allF, traceF) ∧
        (∀ u ∈ allUrls, u ∈ allF) ∧
        allF.Nodup ∧
        (∀ u ∈ allF, normalize_identifier u = u ∧ env u ≠ none ∧
          traceF.count u = 1) ∧
        (∀ u, normalize_identifier u = u → env u ≠ none → u ∉ allF →
          traceF.count u = 0) ∧
        (∀ w ∈ allF, ∀ v ∈ pageLinks env baseUrl w, env v = none ∨ v ∈ allF) ∧
        (∀ u ∈ pending, env u ≠ none → u ∈ allF) := by
  intro fuel
  induction fuel with
  | zero =>
      intro pending allUrls trace _ _ _ _ _ _ hfuel
      omega
  | succ fuel ih =>
      intro pending allUrls trace hp hpnd ha hand h5 h6 hfuel
      cases pending with
      | nil =>
          refine ⟨allUrls, trace, rfl, fun u hu => hu, hand, ?_, h5, ?_, by simp⟩
          · intro u hu
            exact ⟨(ha u hu).1, (ha u hu).2.2.1, (ha u hu).2.2.2⟩
          · intro w hw v hv
            rcases h6 w hw v hv with h | h | h
            · exact Or.inl h
            · exact Or.inr h
            · exact absurd h (List.not_mem_nil v)
      | cons u rest =>
          have hu := hp u (by simp)
          have hnu : normalize_identifier u = u := hu.1
          by_cases hmem : u ∈ allUrls
          · -- already collected: skip without fetching
            have hstep : get_identifiers_loop env baseUrl (fuel + 1) (u :: rest)
                allUrls trace = get_identifiers_loop env baseUrl fuel rest allUrls
                trace := by
              rw [get_identifiers_loop]
              simp only [hnu, if_pos hmem]
            obtain ⟨allF, traceF, heq, hsub, hnd, hone, hzero, hcl, hpend⟩ :=
              ih rest allUrls trace
                (fun x hx => hp x (by simp [hx])) (List.Nodup.of_cons hpnd)
                ha hand h5
                (by
                  intro w hw v hv
                  rcases h6 w hw v hv with h | h | h
                  · exact Or.inl h
                  · exact Or.inr (Or.inl h)
                  · rcases List.mem_cons.mp h with h | h
                    · exact Or.inr (Or.inl (h ▸ hmem))
                    · exact Or.inr (Or.inr h))
                (by simp only [List.length_cons] at hfuel; omega)
            refine ⟨allF, traceF, hstep ▸ heq, hsub, hnd, hone, hzero, hcl, ?_⟩
            intro x hx hxe
            rcases List.mem_cons.mp hx with h | h
            · exact hsub x (h ▸ hmem)
            · exact hpend x h hxe
          · cases henv : env u with
            | none =>
                -- fetch failed: identifier dropped, fetch recorded
                have hstep : get_identifiers_loop env baseUrl (fuel + 1) (u :: rest)
                    allUrls trace = get_identifiers_loop env baseUrl fuel rest
                    allUrls (trace ++ [u]) := by
                  rw [get_identifiers_loop]
                  simp only [hnu, if_neg hmem, henv]
                obtain ⟨allF, traceF, heq, hsub, hnd, hone, hzero, hcl, hpend⟩ :=
                  ih rest allUrls (trace ++ [u])
                    (fun x hx => hp x (by simp [hx])) (List.Nodup.of_cons hpnd)
                    (by
                      intro x hx
                      have hux : x ≠ u := fun hxu => hmem (hxu ▸ hx)
                      have := ha x hx
                      refine ⟨this.1, this.2.1, this.2.2.1, ?_⟩
                      rw [List.count_append, this.2.2.2]
                      simp [hux])
                    hand
                    (by
                      intro x hx hxe hxa
                      have hux : x ≠ u := by
                        intro hxu
                        rw [hxu] at hxe
                        exact hxe henv
                      rw [List.count_append, h5 x hx hxe hxa]
                      simp [hux])
                    (by
                      intro w hw v hv
                      rcases h6 w hw v hv with h | h | h
                      · exact Or.inl h
                      · exact Or.inr (Or.inl h)
                      · rcases List.mem_cons.mp h with h | h
                        · exact Or.inl (h ▸ henv)
                        · exact Or.inr (Or.inr h))
                    (by simp only [List.length_cons] at hfuel; omega)
                refine ⟨allF, traceF, hstep ▸ heq, hsub, hnd, hone, hzero, hcl, ?_⟩
                intro x hx hxe
                rcases List.mem_cons.mp hx with h | h
                · exact absurd (h ▸ henv) hxe
                · exact hpend x h hxe
            | some hrefs =>
                -- successful fetch: collect u, enqueue its new links
                have hpl : pageLinks env baseUrl u = extract_links baseUrl hrefs u := by
                  simp [pageLinks, henv]
                have hstep : get_identifiers_loop env baseUrl (fuel + 1) (u :: rest)
                    allUrls trace = get_identifiers_loop env baseUrl fuel
                    (rest ++ (extract_links baseUrl hrefs u).filter
                      (fun l => l ∉ allUrls ++ [u] ∧ l ∉ rest))
                    (allUrls ++ [u]) (trace ++ [u]) := by
                  rw [get_identifiers_loop]
                  simp only [hnu, if_neg hmem, henv]
                have hnl_nd : ((extract_links baseUrl hrefs u).filter
                    (fun l => l ∉ allUrls ++ [u] ∧ l ∉ rest)).Nodup := by
                  apply List.Nodup.filter
                  unfold extract_links
                  exact List.nodup_dedup _
                have hnl_mem : ∀ x ∈ (extract_links baseUrl hrefs u).filter
                    (fun l => l ∉ allUrls ++ [u] ∧ l ∉ rest),
                    x ∈ pageLinks env baseUrl u ∧ x ∉ allUrls ++ [u] ∧ x ∉ rest := by
                  intro x hx
                  have h1 := List.mem_of_mem_filter hx
                  have h2 := List.of_mem_filter hx
                  simp only [decide_eq_true_eq] at h2
                  exact ⟨hpl ▸ h1, h2.1, h2.2⟩
                have hcount_u : (trace ++ [u]).count u = 1 := by
                  rw [List.count_append, h5 u hnu (by simp [henv]) hmem]
                  simp
                obtain ⟨allF, traceF, heq, hsub, hnd, hone, hzero, hcl, hpend⟩ :=
                  ih (rest ++ (extract_links baseUrl hrefs u).filter
                      (fun l => l ∉ allUrls ++ [u] ∧ l ∉ rest))
                    (allUrls ++ [u]) (trace ++ [u])
                    (by
                      intro x hx
                      rcases List.mem_append.mp hx with h | h
                      · exact hp x (by simp [h])
                      · have hm := (hnl_mem x h).1
                        exact ⟨extract_links_normalized (hpl ▸ hm),
                          hclosed u hu.2 x hm⟩)
                    (by
                      rw [List.nodup_append]
                      refine ⟨List.Nodup.of_cons hpnd, hnl_nd, ?_⟩
                      intro x hx hx2
                      exact (hnl_mem x hx2).2.2 hx)
                    (by
                      intro x hx
                      rcases List.mem_append.mp hx with h | h
                      · have hux : x ≠ u := fun hxu => hmem (hxu ▸ h)
                        have := ha x h
                        refine ⟨this.1, this.2.1, this.2.2.1, ?_⟩
                        rw [List.count_append, this.2.2.2]
                        simp [hux]
                      · have hxu : x = u := by simpa using h
                        subst hxu
                        exact ⟨hnu, hu.2, by simp [henv], hcount_u⟩)
                    (by
                      rw [List.nodup_append]
                      exact ⟨hand, List.nodup_singleton u,
                        fun x hx hx2 => hmem ((by simpa using hx2 : x = u) ▸ hx)⟩)
                    (by
                      intro x hx hxe hxa
                      have hxu : x ≠ u := fun hxu =>
                        hxa (by simp [hxu])
                      have hxa' : x ∉ allUrls := fun hc => hxa (by simp [hc])
                      rw [List.count_append, h5 x hx hxe hxa']
                      simp [hxu])
                    (by
                      intro w hw v hv
                      rcases List.mem_append.mp hw with hwold | hwu
                      · rcases h6 w hwold v hv with h | h | h
                        · exact Or.inl h
                        · exact Or.inr (Or.inl (by simp [h]))
                        · rcases List.mem_cons.mp h with h | h
                          · exact Or.inr (Or.inl (by simp [h]))
                          · exact Or.inr (Or.inr (by simp [h]))
                      · have hwu' : w = u := by simpa using hwu
                        subst hwu'
                        by_cases hva : v ∈ allUrls ++ [w]
                        · exact Or.inr (Or.inl hva)
                        · by_cases hvr : v ∈ rest
                          · exact Or.inr (Or.inr (by simp [hvr]))
                          · refine Or.inr (Or.inr ?_)
                            rw [List.mem_append]
                            right
                            apply List.mem_filter_of_mem (hpl ▸ hv)
                            simp [hva, hvr])
                    (by
                      have hR := filter_dropOne hUnd hu.2 hmem
                      have hlen : ((extract_links baseUrl hrefs u).filter
                          (fun l => l ∉ allUrls ++ [u] ∧ l ∉ rest)).length ≤ LB := by
                        calc ((extract_links baseUrl hrefs u).filter
                              (fun l => l ∉ allUrls ++ [u] ∧ l ∉ rest)).length
                            ≤ (extract_links baseUrl hrefs u).length :=
                              List.length_filter_le _ _
                          _ = (pageLinks env baseUrl u).length := by rw [hpl]
                          _ ≤ LB := hLB u hu.2
                      have hmul : (U.filter (fun x => x ∉ allUrls)).length *
                          (LB + 1) =
                          (U.filter (fun x => x ∉ allUrls ++ [u])).length *
                            (LB + 1) + (LB + 1) := by
                        rw [← hR]
                        ring
                      rw [List.length_append]
                      simp only [List.length_cons] at hfuel
                      omega)
                refine ⟨allF, traceF, hstep ▸ heq, ?_, hnd, hone, hzero, hcl, ?_⟩
                · intro x hx
                  exact hsub x (by simp [hx])
                · intro x hx hxe
                  rcases List.mem_cons.mp hx with h | h
                  · exact hsub x (by simp [h])
                  · exact hpend x (by simp [h]) hxe

/-- Processing-phase trace: over normalized, fetchable, duplicate-free
identifiers that are not yet in `processed_items`, the loop fetches every
identifier exactly once, in order. -/
theorem casc_loop_trace (env : Url → Option (List String)) (procFn : Url → Bool) :
    ∀ (ids processed : List Url) (success : Bool) (trace : List Url),
      (∀ w ∈ ids, normalize_identifier w = w ∧ env w ≠ none) →
      (∀ w ∈ ids, w ∉ processed) →
      ids.Nodup →
      (casc_loop env procFn ids processed success trace).2 = trace ++ ids := by
  intro ids
  induction ids with
  | nil => intro processed success trace _ _ _; simp [casc_loop]
  | cons w rest ih =>
      intro processed success trace hw hnp hnd
      have h1 := hw w (by simp)
      cases henv : env w with
      | none => exact absurd henv h1.2
      | some hrefs =>
          have hstep : casc_loop env procFn (w :: rest) processed success trace =
              casc_loop env procFn rest (processed ++ [w]) (success && procFn w)
                (trace ++ [w]) := by
            rw [casc_loop]
            simp only [h1.1, if_neg (hnp w (by simp)), henv]
          rw [hstep, ih (processed ++ [w]) (success && procFn w)
            (trace ++ [w]) (fun x hx => hw x (by simp [hx]))
            (by
              intro x hx
              rw [List.mem_append]
              push_neg
              refine ⟨hnp x (by simp [hx]), ?_⟩
              have hxw : x ≠ w := by
                intro hxw
                rw [List.nodup_cons] at hnd
                exact hnd.1 (hxw ▸ hx)
              simp [hxw])
            (List.Nodup.of_cons hnd)]
          simp

/-- A false success flag stays false. -/
theorem casc_loop_false (env : Url → Option (List String)) (procFn : Url → Bool) :
    ∀ (ids processed trace : List Url),
      (casc_loop env procFn ids processed false trace).1 = false := by
  intro ids
  induction ids with
  | nil => intro processed trace; simp [casc_loop]
  | cons w rest ih =>
      intro processed trace
      rw [casc_loop]
      by_cases hmem : normalize_identifier w ∈ processed
      · rw [if_pos hmem]; exact ih _ _
      · rw [if_neg hmem]
        cases env w with
        | none => exact ih _ _
        | some _ => rw [Bool.false_and]; exact ih _ _

/-- A processing failure of any fetchable identifier in the list forces the
overall success flag to false. -/
theorem casc_loop_flag_false (env : Url → Option (List String)) (procFn : Url → Bool) :
    ∀ (ids processed : List Url) (success : Bool) (trace : List Url) (w : Url),
      w ∈ ids →
      (∀ x ∈ ids, normalize_identifier x = x) →
      (∀ x ∈ ids, x ∉ processed) →
      ids.Nodup →
      env w ≠ none → procFn w = false →
      (casc_loop env procFn ids processed success trace).1 = false := by
  intro ids
  induction ids with
  | nil => intro _ _ _ _ hmem; cases hmem
  | cons x rest ih =>
      intro processed success trace w hmem hnorm hnp hnd henv hproc
      have hrest : ∀ y ∈ rest, y ∉ processed ++ [x] := by
        intro y hy
        rw [List.mem_append]
        push_neg
        refine ⟨hnp y (by simp [hy]), ?_⟩
        intro hyx
        rw [List.nodup_cons] at hnd
        exact hnd.1 ((by simpa using hyx : y = x) ▸ hy)
      by_cases hxw : x = w
      · subst hxw
        cases henvx : env x with
        | none => exact absurd henvx henv
        | some _ =>
            have hstep : casc_loop env procFn (x :: rest) processed success trace =
                casc_loop env procFn rest (processed ++ [x]) (success && procFn x)
                  (trace ++ [x]) := by
              rw [casc_loop]
              simp only [hnorm x (by simp), if_neg (hnp x (by simp)), henvx]
            rw [hstep, hproc, Bool.and_false]
            exact casc_loop_false env procFn _ _ _
      · have hwr : w ∈ rest := by
          rcases List.mem_cons.mp hmem with h | h
          · exact absurd h.symm hxw
          · exact h
        cases henvx : env x with
        | none =>
            have hstep : casc_loop env procFn (x :: rest) processed success trace =
                casc_loop env procFn rest processed success (trace ++ [x]) := by
              rw [casc_loop]
              simp only [hnorm x (by simp), if_neg (hnp x (by simp)), henvx]
            rw [hstep]
            exact ih processed success (trace ++ [x]) w hwr
              (fun y hy => hnorm y (by simp [hy])) (fun y hy => hnp y (by simp [hy]))
              (List.Nodup.of_cons hnd) henv hproc
        | some _ =>
            have hstep : casc_loop env procFn (x :: rest) processed success trace =
                casc_loop env procFn rest (processed ++ [x]) (success && procFn x)
                  (trace ++ [x]) := by
              rw [casc_loop]
              simp only [hnorm x (by simp), if_neg (hnp x (by simp)), henvx]
            rw [hstep]
            exact ih (processed ++ [x]) (success && procFn x) (trace ++ [x]) w hwr
              (fun y hy => hnorm y (by simp [hy])) hrest
              (List.Nodup.of_cons hnd) henv hproc

/-- Reachable fetchable identifiers all end up in a link-closed result set
that contains the fetchable root. -/
theorem reaches_mem (env : Url → Option (List String)) (baseUrl : Url)
    (allF : List Url)
    (hroot : env baseUrl ≠ none → baseUrl ∈ allF)
    (hcl : ∀ w ∈ allF, ∀ v ∈ pageLinks env baseUrl w, env v = none ∨ v ∈ allF) :
    ∀ v, Reaches env baseUrl v → env v ≠ none → v ∈ allF := by
  intro v hv
  induction hv with
  | root => exact hroot
  | step u v hu hlink ihu =>
      intro hve
      have hue : env u ≠ none := by
        intro h
        rw [pageLinks, h] at hlink
        exact absurd hlink (List.not_mem_nil v)
      rcases hcl u (ihu hue) v hlink with h | h
      · exact absurd h hve
      · exact h

/-! ### Claim C1 -/

/-- Claim C1 (amended): on every finite, link-closed same-site graph the
crawl terminates (some finite fuel suffices), and over the whole run of
`collect_and_save_contents` every reachable, same-site, fetchable
identifier is fetched exactly **twice**: once during the discovery phase
(`get_identifiers`) and once more during the saving phase, which re-fetches
every discovered identifier; the visited sets prevent infinite loops. -/
theorem crawl_terminates_fetches_twice
    (env : Url → Option (List String)) (baseUrl : Url) (procFn : Url → Bool)
    (U : List Url) (LB fuel : Nat)
    (hroot : normalize_identifier baseUrl = baseUrl)
    (hrootU : baseUrl ∈ U) (hUnd : U.Nodup)
    (hclosed : ∀ u ∈ U, ∀ v ∈ pageLinks env baseUrl u, v ∈ U)
    (hLB : ∀ u ∈ U, (pageLinks env baseUrl u).length ≤ LB)
    (hfuel : U.length * (LB + 1) + 1 < fuel) :
    ∃ (succ : Bool) (dtrace ptrace : List Url),
      collect_and_save_contents env baseUrl procFn fuel =
        some (succ, dtrace, ptrace) ∧
      ∀ v, Reaches env baseUrl v → env v ≠ none →
        dtrace.count v = 1 ∧ ptrace.count v = 1 ∧
          (dtrace ++ ptrace).count v = 2 := by
  obtain ⟨allF, traceF, heq, hsub, hnd, hone, hzero, hcl, hpend⟩ :=
    get_identifiers_loop_spec env baseUrl U hUnd hclosed LB hLB fuel [baseUrl] [] []
      (fun x hx => by
        have hxa : x = baseUrl := by simpa using hx
        exact ⟨hxa ▸ hroot, hxa ▸ hrootU⟩)
      (List.nodup_singleton _)
      (fun x hx => absurd hx (List.not_mem_nil x))
      List.nodup_nil
      (fun x _ _ _ => List.count_nil x)
      (fun w hw => absurd hw (List.not_mem_nil w))
      (by simpa using hfuel)
  have hcascable : ∀ w ∈ allF, normalize_identifier w = w ∧ env w ≠ none :=
    fun w hw => ⟨(hone w hw).1, (hone w hw).2.1⟩
  have hptrace : (casc_loop env procFn allF [] true []).2 = allF := by
    rw [casc_loop_trace env procFn allF [] true [] hcascable
      (fun w _ => List.not_mem_nil w) hnd]
    simp
  refine ⟨(casc_loop env procFn allF [] true []).1, traceF,
    (casc_loop env procFn allF [] true []).2, ?_, ?_⟩
  · unfold collect_and_save_contents get_identifiers
    rw [heq]
  · intro v hv hve
    have hvF : v ∈ allF :=
      reaches_mem env baseUrl allF (hpend baseUrl (by simp)) hcl v hv hve
    have hd : traceF.count v = 1 := (hone v hvF).2.2
    have hp2 : ((casc_loop env procFn allF [] true []).2).count v = 1 := by
      rw [hptrace]
      exact List.count_eq_one_of_mem hnd hvF
    exact ⟨hd, hp2, by rw [List.count_append, hd, hp2]⟩

/-- Crawl root `https://s` of the concrete example graphs. -/
def siteA : Url := ⟨"https", "s", "", "", "", ""⟩

/-- Identifier `https://s/b`. -/
def siteB : Url := ⟨"https", "s", "/b", "", "", ""⟩

/-- Identifier `https://s/c`. -/
def siteC : Url := ⟨"https", "s", "/c", "", "", ""⟩

/-- The cyclic link graph of the spec's termination example:
A→B, A→C, B→A, C→A. -/
def cyclicEnv (u : Url) : Option (List String) :=
  if u = siteA then some ["/b", "/c"]
  else if u = siteB then some ["/"]
  else if u = siteC then some ["/"]
  else none

/-- A graph where the fetch of `/b` fails: A links `/b` and `/c`, the fetch
of `/b` fails, and `/c` links `/b` again. -/
def failBEnv (u : Url) : Option (List String) :=
  if u = siteA then some ["/b", "/c"]
  else if u = siteC then some ["/b"]
  else none

/-- Claim C1 (counterexample): on the finite cyclic graph A→B→A, A→C, C→A
the whole run of `collect_and_save_contents` fetches the reachable,
same-site, fetchable identifier A twice — once in `get_identifiers` and
once in the saving loop — not exactly once as claimed. -/
theorem crawl_counterexample :
    Reaches cyclicEnv siteA siteA ∧ cyclicEnv siteA ≠ none ∧
    collect_and_save_contents cyclicEnv siteA (fun _ => true) 20 =
      some (true, [siteA, siteB, siteC], [siteA, siteB, siteC]) ∧
    ([siteA, siteB, siteC] ++ [siteA, siteB, siteC]).count siteA = 2 ∧
    ([siteA, siteB, siteC] ++ [siteA, siteB, siteC]).count siteA ≠ 1 :=
  ⟨Reaches.root, by decide, by decide, by decide, by decide⟩

/-- Witness for `crawl_terminates_fetches_twice` on the concrete cyclic
graph with universe [A, B, C], link bound 2 and fuel 20. -/
theorem crawl_terminates_fetches_twice_witness :
    (normalize_identifier siteA = siteA ∧ siteA ∈ [siteA, siteB, siteC] ∧
      [siteA, siteB, siteC].Nodup ∧
      (∀ u ∈ [siteA, siteB, siteC], ∀ v ∈ pageLinks cyclicEnv siteA u,
        v ∈ [siteA, siteB, siteC]) ∧
      (∀ u ∈ [siteA, siteB, siteC], (pageLinks cyclicEnv siteA u).length ≤ 2) ∧
      [siteA, siteB, siteC].length * (2 + 1) + 1 < 20) ∧
    (∃ (succ : Bool) (dtrace ptrace : List Url),
      collect_and_save_contents cyclicEnv siteA (fun _ => true) 20 =
        some (succ, dtrace, ptrace) ∧
      ∀ v, Reaches cyclicEnv siteA v → cyclicEnv v ≠ none →
        dtrace.count v = 1 ∧ ptrace.count v = 1 ∧
          (dtrace ++ ptrace).count v = 2) :=
  ⟨⟨by decide, by decide, by decide, by decide, by decide, by decide⟩,
    crawl_terminates_fetches_twice cyclicEnv siteA (fun _ => true)
      [siteA, siteB, siteC] 2 20 (by decide) (by decide) (by decide) (by decide)
      (by decide) (by decide)⟩

/-! ### Claim C2 -/

theorem filter_dropOne_perm {l s : List Url} {a : Url} (hl : l.Nodup) (ha : a ∈ l)
    (hna : a ∉ s) :
    List.Perm (l.filter (fun x => x ∉ s)) (a :: l.filter (fun x => x ∉ s ++ [a])) := by
  induction l with
  | nil => cases ha
  | cons b t ih =>
      rw [List.nodup_cons] at hl
      by_cases hba : b = a
      · subst hba
        rw [List.filter_cons, List.filter_cons]
        have h1 : (decide (b ∉ s)) = true := by simp [hna]
        have h2 : (decide (b ∉ s ++ [b])) = false := by simp
        rw [h1, h2, if_pos rfl, if_neg (by simp)]
        have h3 : t.filter (fun x => decide (x ∉ s ++ [b])) =
            t.filter (fun x => decide (x ∉ s)) := by
          apply List.filter_congr
          intro x hx
          have hxb : x ≠ b := fun hxb => hl.1 (hxb ▸ hx)
          simp [hxb]
        rw [h3]
      · have hat : a ∈ t := by
          rcases List.mem_cons.mp ha with h | h
          · exact absurd h.symm hba
          · exact h
        have hrec := ih hl.2 hat
        rw [List.filter_cons, List.filter_cons]
        by_cases hbs : b ∈ s
        · have h1 : (decide (b ∉ s ++ [a])) = false := by simp [hbs]
          have h2 : (decide (b ∉ s)) = false := by simp [hbs]
          rw [h1, h2, if_neg (by simp), if_neg (by simp)]
          exact hrec
        · have h1 : (decide (b ∉ s ++ [a])) = true := by simp [hbs, hba]
          have h2 : (decide (b ∉ s)) = true := by simp [hbs]
          rw [h1, h2, if_pos rfl, if_pos rfl]
          exact (hrec.cons b).trans (List.Perm.swap a b _)

theorem filter_dropOne_sum (f : Url → Nat) {l s : List Url} {a : Url}
    (hl : l.Nodup) (ha : a ∈ l) (hna : a ∉ s) :
    ((l.filter (fun x => x ∉ s)).map f).sum =
      f a + ((l.filter (fun x => x ∉ s ++ [a])).map f).sum := by
  have hperm := (filter_dropOne_perm hl ha hna).map f
  have := hperm.sum_eq
  simpa using this

/-- Fetch-count bound for the discovery loop: the number of fetches of `u`
is bounded by one per occurrence of `u` in the initial pending set plus one
per newly collected page whose links mention `u`. -/
theorem get_identifiers_loop_count
    (env : Url → Option (List String)) (baseUrl : Url) (u : Url) :
    ∀ (fuel : Nat) (pending allUrls trace allF traceF : List Url),
      (∀ x ∈ pending, normalize_identifier x = x) →
      allUrls.Nodup →
      get_identifiers_loop env baseUrl fuel pending allUrls trace =
        some (allF, traceF) →
      (∀ x ∈ allUrls, x ∈ allF) ∧ allF.Nodup ∧
      traceF.count u ≤ trace.count u + pending.count u +
        ((allF.filter (fun w => w ∉ allUrls)).map
          (fun w => (pageLinks env baseUrl w).count u)).sum := by
  intro fuel
  induction fuel with
  | zero =>
      intro pending allUrls trace allF traceF _ _ heq
      exact absurd heq (by simp [get_identifiers_loop])
  | succ fuel ih =>
      intro pending allUrls trace allF traceF hnorm hnd heq
      cases pending with
      | nil =>
          rw [get_identifiers_loop] at heq
          simp only [Option.some.injEq, Prod.mk.injEq] at heq
          obtain ⟨rfl, rfl⟩ := heq
          refine ⟨fun x hx => hx, hnd, ?_⟩
          have hfe : allUrls.filter (fun w => w ∉ allUrls) = [] := by
            rw [List.filter_eq_nil_iff]
            intro x hx
            simp [hx]
          rw [hfe]
          simp
      | cons w rest =>
          have hw := hnorm w (by simp)
          have hcons : (w :: rest).count u = rest.count u + ([w] : List Url).count u := by
            rw [show w :: rest = [w] ++ rest from rfl, List.count_append]
            omega
          by_cases hmem : w ∈ allUrls
          · have hstep : get_identifiers_loop env baseUrl (fuel + 1) (w :: rest)
                allUrls trace = get_identifiers_loop env baseUrl fuel rest allUrls
                trace := by
              rw [get_identifiers_loop]
              simp only [hw, if_pos hmem]
            rw [hstep] at heq
            obtain ⟨hsub, hnd', hcount⟩ :=
              ih rest allUrls trace allF traceF (fun x hx => hnorm x (by simp [hx]))
                hnd heq
            exact ⟨hsub, hnd', by omega⟩
          · cases henv : env w with
            | none =>
                have hstep : get_identifiers_loop env baseUrl (fuel + 1) (w :: rest)
                    allUrls trace = get_identifiers_loop env baseUrl fuel rest
                    allUrls (trace ++ [w]) := by
                  rw [get_identifiers_loop]
                  simp only [hw, if_neg hmem, henv]
                rw [hstep] at heq
                obtain ⟨hsub, hnd', hcount⟩ :=
                  ih rest allUrls (trace ++ [w]) allF traceF
                    (fun x hx => hnorm x (by simp [hx])) hnd heq
                refine ⟨hsub, hnd', ?_⟩
                rw [List.count_append] at hcount
                omega
            | some hrefs =>
                have hpl : pageLinks env baseUrl w = extract_links baseUrl hrefs w := by
                  simp [pageLinks, henv]
                have hstep : get_identifiers_loop env baseUrl (fuel + 1) (w :: rest)
                    allUrls trace = get_identifiers_loop env baseUrl fuel
                    (rest ++ (extract_links baseUrl hrefs w).filter
                      (fun l => l ∉ allUrls ++ [w] ∧ l ∉ rest))
                    (allUrls ++ [w]) (trace ++ [w]) := by
                  rw [get_identifiers_loop]
                  simp only [hw, if_neg hmem, henv]
                rw [hstep] at heq
                obtain ⟨hsub, hndF, hcount⟩ :=
                  ih (rest ++ (extract_links baseUrl hrefs w).filter
                      (fun l => l ∉ allUrls ++ [w] ∧ l ∉ rest))
                    (allUrls ++ [w]) (trace ++ [w]) allF traceF
                    (by
                      intro x hx
                      rcases List.mem_append.mp hx with h | h
                      · exact hnorm x (by simp [h])
                      · exact extract_links_normalized (List.mem_of_mem_filter h))
                    (by
                      rw [List.nodup_append]
                      exact ⟨hnd, List.nodup_singleton w,
                        fun x hx hx2 => hmem ((by simpa using hx2 : x = w) ▸ hx)⟩)
                    heq
                refine ⟨fun x hx => hsub x (by simp [hx]), hndF, ?_⟩
                have hwF : w ∈ allF := hsub w (by simp)
                have hsplit : ((allF.filter (fun x => x ∉ allUrls)).map
                    (fun w => (pageLinks env baseUrl w).count u)).sum =
                    (pageLinks env baseUrl w).count u +
                      ((allF.filter (fun x => x ∉ allUrls ++ [w])).map
                        (fun w => (pageLinks env baseUrl w).count u)).sum :=
                  filter_dropOne_sum (fun w => (pageLinks env baseUrl w).count u)
                    hndF hwF hmem
                have hnlc : ((extract_links baseUrl hrefs w).filter
                    (fun l => l ∉ allUrls ++ [w] ∧ l ∉ rest)).count u ≤
                    (pageLinks env baseUrl w).count u := by
                  rw [hpl]
                  exact List.Sublist.count_le (List.filter_sublist _) u
                rw [List.count_append, List.count_append] at hcount
                omega

/-- Claim C2 (amended): a failed fetch is not retried spontaneously, but
the identifier **is** fetched again when it is rediscovered among the links
of a later successfully fetched page: over a completed discovery run the
number of fetches of `u` is bounded by its multiplicity in the initial work
set (the root) plus one per collected page whose extracted links contain
`u`; in particular an identifier that is not the root and is linked by no
collected page is never fetched more than zero times after a failure —
its fetch count is 0 unless seeded or linked. -/
theorem fetch_retry_bound
    (env : Url → Option (List String)) (baseUrl u : Url) (fuel : Nat)
    (allF traceF : List Url)
    (hroot : normalize_identifier baseUrl = baseUrl)
    (hrun : get_identifiers env baseUrl fuel = some (allF, traceF)) :
    traceF.count u ≤ ([baseUrl] : List Url).count u +
      (allF.map (fun w => (pageLinks env baseUrl w).count u)).sum ∧
    (u ≠ baseUrl → (∀ w ∈ allF, u ∉ pageLinks env baseUrl w) →
      traceF.count u = 0) := by
  obtain ⟨hsub, hnd, hcount⟩ := get_identifiers_loop_count env baseUrl u fuel
    [baseUrl] [] [] allF traceF
    (fun x hx => (by simpa using hx : x = baseUrl) ▸ hroot)
    List.nodup_nil hrun
  have hfilter : allF.filter (fun w => w ∉ ([] : List Url)) = allF := by
    rw [List.filter_eq_self]
    intro x hx
    simp
  rw [hfilter, List.count_nil] at hcount
  constructor
  · omega
  · intro hne hnol
    have hz : (allF.map (fun w => (pageLinks env baseUrl w).count u)).sum = 0 := by
      rw [List.sum_eq_zero]
      intro x hx
      rw [List.mem_map] at hx
      obtain ⟨w, hw, rfl⟩ := hx
      exact List.count_eq_zero.mpr (hnol w hw)
    have hb : ([baseUrl] : List Url).count u = 0 := by
      rw [List.count_eq_zero]
      simp [hne]
    omega

/-- Claim C2 (counterexample): in the graph where A links `/b` and `/c`,
the fetch of B fails, and C links `/b` again, the discovery loop fetches B
a second time after its first fetch failed. -/
theorem fetch_retry_counterexample :
    failBEnv siteB = none ∧
    get_identifiers failBEnv siteA 20 =
      some ([siteA, siteC], [siteA, siteB, siteC, siteB]) ∧
    [siteA, siteB, siteC, siteB].count siteB = 2 :=
  ⟨by decide, by decide, by decide⟩

/-- Witness for `fetch_retry_bound` on the concrete failing graph: the two
fetches of B are exactly accounted for by the links of A and C. -/
theorem fetch_retry_bound_witness :
    (normalize_identifier siteA = siteA ∧
      get_identifiers failBEnv siteA 20 =
        some ([siteA, siteC], [siteA, siteB, siteC, siteB])) ∧
    [siteA, siteB, siteC, siteB].count siteB ≤
      ([siteA] : List Url).count siteB +
      ([siteA, siteC].map (fun w => (pageLinks failBEnv siteA w).count siteB)).sum :=
  ⟨⟨by decide, by decide⟩,
    (fetch_retry_bound failBEnv siteA siteB 20 [siteA, siteC]
      [siteA, siteB, siteC, siteB] (by decide) (by decide)).1⟩

/-! ## Content extraction and persistence

`AstroParser.process_content` (src/parsing/astro/AstroParsing.py lines
78-119) and `BaseContentSplitter.process_content`
(src/parsing/BaseParsing.py lines 28-75).

The parsed document (BeautifulSoup, an external collaborator) is modelled
by its query results: `AstroDoc` holds the stripped text of the `<title>`
element (if present) and the results of the five content-region selectors
in source priority order.  `Node` is the abstract type of DOM subtrees; the
HTML-to-Markdown converter and the DOM mutations (removing boilerplate,
deleting `#`-hrefs, padding `<pre>` blocks) are external functions on it.
The file write is reified as the returned `(filename, contents)` pair; the
`try/except` in the splitter guards only the file I/O, which the model does
not perform. -/

/-- The metadata dictionary threaded through `process_content` (keys
`identifier`, `title`, `url`, `site_type`; absent keys are `none`). -/
structure Metadata where
  identifier : Url
  title : Option String
  url : Option Url
  site_type : Option String
deriving DecidableEq, Repr

/-- Query results of parsing a fetched Astro page: `<title>` text and the
five content-region selectors of `AstroParser.process_content`, in source
order: `article.content`, `main.main-content`, `div.prose`,
`div[role=main]`, `main`. -/
structure AstroDoc (Node : Type) where
  title : Option String
  articleContent : Option Node
  mainMainContent : Option Node
  divProse : Option Node
  divRoleMain : Option Node
  mainTag : Option Node

/-- Does the string start with `"//"`? -/
def startsDoubleSlash (s : String) : Bool :=
  match s.data with
  | '/' :: '/' :: _ => true
  | _ => false

/-- Modelled after `urllib.parse.urlunparse` (external collaborator):
reassemble a URL string from its components. -/
def urlunparse (u : Url) : String :=
  let url := u.path
  let url := if u.params ≠ "" then url ++ ";" ++ u.params else url
  let url :=
    if u.netloc ≠ "" ∨ startsDoubleSlash url = true then
      "//" ++ u.netloc ++
        (if url ≠ "" ∧ headIsSlash url = false then "/" ++ url else url)
    else url
  let url := if u.scheme ≠ "" then u.scheme ++ ":" ++ url else url
  let url := if u.query ≠ "" then url ++ "?" ++ u.query else url
  if u.fragment ≠ "" then url ++ "#" ++ u.fragment else url

/-- The parse of the empty URL string (all components empty), used when the
metadata has no `url` key. -/
def emptyUrl : Url := ⟨"", "", "", "", "", ""⟩

/-- Model of `BaseContentSplitter.process_content` (src/parsing/BaseParsing.py lines
28-75): delete the `href` of in-page anchors and pad `<pre>` blocks (DOM
mutations, external), convert to Markdown (external), run the normalization
passes, prepend the `Source:` header when the metadata has a non-empty URL,
and write the text under `clean_filename` of that URL.  Returns the success
flag together with the reified file write. -/
def splitter_process_content {Node : Type} (mdConvert : Node → String)
    (removeFragmentHrefs padPre : Node → Node)
    (content_div : Node) (metadata : Metadata) : Bool × Option (String × String) :=
  let cleaned := padPre (removeFragmentHrefs content_div)
  let markdown := textNormalize (mdConvert cleaned)
  let source_url :=
    match metadata.url with
    | some mu => urlunparse mu
    | none => ""
  let markdown :=
    if source_url ≠ "" then "Source: " ++ source_url ++ "\n\n" ++ markdown
    else markdown
  let filename :=
    match metadata.url with
    | some mu => clean_filename mu
    | none => clean_filename emptyUrl
  (true, some (filename, markdown))

/-- Model of `AstroParser.process_content` (src/parsing/astro/AstroParsing.py lines
78-119): take the page title (falling back to the identifier), pick the
first matching content region among the five selectors, fail when none
matches, otherwise remove boilerplate, store title/url/site-type in the
metadata and hand the region to the content splitter. -/
def astro_process_content {Node : Type} (mdConvert : Node → String)
    (removeFragmentHrefs padPre removeBoilerplate : Node → Node)
    (doc : AstroDoc Node) (metadata : Metadata) : Bool × Option (String × String) :=
  let title_text :=
    match doc.title with
    | some t => t
    | none => urlunparse metadata.identifier
  let content_div :=
    (((doc.articleContent.or doc.mainMainContent).or doc.divProse).or
      doc.divRoleMain).or doc.mainTag
  match content_div with
  | none => (false, none)
  | some node =>
      let node2 := removeBoilerplate node
      let metadata2 : Metadata :=
        { identifier := metadata.identifier, title := some title_text,
          url := some metadata.identifier, site_type := some "astro" }
      splitter_process_content mdConvert removeFragmentHrefs padPre node2 metadata2

theorem splitter_title_irrelevant {Node : Type} (mdConvert : Node → String)
    (removeFragmentHrefs padPre : Node → Node) (node : Node) (m1 m2 : Metadata)
    (hurl : m1.url = m2.url) :
    splitter_process_content mdConvert removeFragmentHrefs padPre node m1 =
      splitter_process_content mdConvert removeFragmentHrefs padPre node m2 := by
  unfold splitter_process_content
  rw [hurl]

/-! ### Claim C4 -/

/-- Claim C4 (confirmed): when none of the five ordered selectors matches,
`process_content` returns failure without producing any file write; and in
the processing loop of `collect_and_save_contents` a page whose processing
fails forces the overall success flag to false while every identifier of
the list is still fetched (the loop continues past the failure). -/
theorem extraction_failure_spec :
    (∀ (Node : Type) (mdConvert : Node → String)
        (removeFragmentHrefs padPre removeBoilerplate : Node → Node)
        (doc : AstroDoc Node) (metadata : Metadata),
      doc.articleContent = none → doc.mainMainContent = none →
      doc.divProse = none → doc.divRoleMain = none → doc.mainTag = none →
      astro_process_content mdConvert removeFragmentHrefs padPre removeBoilerplate
        doc metadata = (false, none)) ∧
    (∀ (env : Url → Option (List String)) (procFn : Url → Bool)
        (ids : List Url) (w : Url),
      w ∈ ids → (∀ x ∈ ids, normalize_identifier x = x) → ids.Nodup →
      env w ≠ none → procFn w = false →
      (casc_loop env procFn ids [] true []).1 = false ∧
      ((∀ x ∈ ids, env x ≠ none) →
        (casc_loop env procFn ids [] true []).2 = ids)) := by
  constructor
  · intro Node mdConvert removeFragmentHrefs padPre removeBoilerplate doc metadata
      h1 h2 h3 h4 h5
    unfold astro_process_content
    rw [h1, h2, h3, h4, h5]
    rfl
  · intro env procFn ids w hmem hnorm hnd henv hproc
    refine ⟨casc_loop_flag_false env procFn ids [] true [] w hmem hnorm
      (fun x _ => List.not_mem_nil x) hnd henv hproc, ?_⟩
    intro hall
    rw [casc_loop_trace env procFn ids [] true []
      (fun x hx => ⟨hnorm x hx, hall x hx⟩) (fun x _ => List.not_mem_nil x) hnd]
    simp

/-- Witness for `extraction_failure_spec`: a document matching no selector,
and the concrete cyclic crawl where processing of the root fails. -/
theorem extraction_failure_spec_witness :
    (astro_process_content (fun _ : Unit => "t") id id id
        ⟨some "Title", none, none, none, none, none⟩ ⟨siteA, none, none, none⟩ =
      (false, none)) ∧
    (siteA ∈ [siteA, siteC] ∧ cyclicEnv siteA ≠ none ∧
      (casc_loop cyclicEnv (fun _ => false) [siteA, siteC] [] true []).1 = false ∧
      (casc_loop cyclicEnv (fun _ => false) [siteA, siteC] [] true []).2 =
        [siteA, siteC]) :=
  ⟨extraction_failure_spec.1 Unit (fun _ => "t") id id id
      ⟨some "Title", none, none, none, none, none⟩ ⟨siteA, none, none, none⟩
      rfl rfl rfl rfl rfl,
    by decide,
    by decide,
    (extraction_failure_spec.2 cyclicEnv (fun _ => false) [siteA, siteC] siteA
      (by decide) (by decide) (by decide) (by decide) rfl).1,
    (extraction_failure_spec.2 cyclicEnv (fun _ => false) [siteA, siteC] siteA
      (by decide) (by decide) (by decide) (by decide) rfl).2 (by decide)⟩

/-! ### Claim C10 -/

/-- Claim C10 (confirmed): the persisted output is independent of the
page's `<title>`: for any two parsed documents whose selector results agree
(so the selected content region is the same) and the same metadata, the
results of `process_content` — including the reified file write — are
byte-identical, whatever the two title texts are; the title reaches only
the metadata dictionary, which the splitter never reads for output. -/
theorem title_noninterference (Node : Type) (mdConvert : Node → String)
    (removeFragmentHrefs padPre removeBoilerplate : Node → Node)
    (d1 d2 : AstroDoc Node) (metadata : Metadata)
    (hart : d1.articleContent = d2.articleContent)
    (hmain : d1.mainMainContent = d2.mainMainContent)
    (hprose : d1.divProse = d2.divProse)
    (hrole : d1.divRoleMain = d2.divRoleMain)
    (htag : d1.mainTag = d2.mainTag)
    (ht1 : d1.title.isSome) (ht2 : d2.title.isSome) :
    astro_process_content mdConvert removeFragmentHrefs padPre removeBoilerplate
        d1 metadata =
      astro_process_content mdConvert removeFragmentHrefs padPre removeBoilerplate
        d2 metadata := by
  obtain ⟨t1, hd1⟩ := Option.isSome_iff_exists.mp ht1
  obtain ⟨t2, hd2⟩ := Option.isSome_iff_exists.mp ht2
  unfold astro_process_content
  rw [hart, hmain, hprose, hrole, htag, hd1, hd2]
  cases hc : (((d2.articleContent.or d2.mainMainContent).or d2.divProse).or
      d2.divRoleMain).or d2.mainTag with
  | none => rfl
  | some node =>
      exact splitter_title_irrelevant mdConvert removeFragmentHrefs padPre
        (removeBoilerplate node) _ _ rfl

/-- Witness for `title_noninterference`: two documents over the node type
`Unit` differing only in their titles produce identical writes. -/
theorem title_noninterference_witness :
    ((⟨some "Title one", some (), none, none, none, none⟩ :
        AstroDoc Unit).title.isSome ∧
      (⟨some "Another title", some (), none, none, none, none⟩ :
        AstroDoc Unit).title.isSome) ∧
    astro_process_content (fun _ : Unit => "body text") id id id
        ⟨some "Title one", some (), none, none, none, none⟩
        ⟨siteB, none, none, none⟩ =
      astro_process_content (fun _ : Unit => "body text") id id id
        ⟨some "Another title", some (), none, none, none, none⟩
        ⟨siteB, none, none, none⟩ :=
  ⟨⟨rfl, rfl⟩,
    title_noninterference Unit (fun _ => "body text") id id id
      (AstroDoc.mk (some "Title one") (some ()) none none none none)
      (AstroDoc.mk (some "Another title") (some ()) none none none none)
      ⟨siteB, none, none, none⟩ rfl rfl rfl rfl rfl rfl rfl⟩

end Copilot
